import Mathlib

/-!
Verification of the ankdown card-compilation pipeline (src/ankdown/ankdown.py).

The Python source is shallowly embedded as executable Lean definitions.
External collaborators (the markdown renderer, the HTTP transport, the
package writer) are modelled at their interface boundary, as the spec
prescribes: the renderer is an arbitrary pure function from text to text,
the HTTP fetch is an arbitrary function from a URL to a fetch result.
Python library primitives used by the source (str.strip, str.split,
os.path.*, hashlib.md5, re.split, re.sub with the two concrete patterns
appearing in the source) are re-implemented here with their documented
semantics over lists of characters, so that every definition is executable
and every concrete claim can be settled by evaluation.
-/

set_option maxRecDepth 100000

namespace Ankdown

/-! ## Python string and path primitives -/

/-- Model of Python str.strip with no argument: remove leading and trailing
whitespace characters. -/
def pyStrip (s : String) : String :=
  String.mk (((s.data.dropWhile Char.isWhitespace).reverse.dropWhile Char.isWhitespace).reverse)

/-- Model of Python str.split for a single-character separator. -/
def pySplitChar (sep : Char) : List Char → List (List Char)
  | [] => [[]]
  | c :: cs =>
    if c = sep then [] :: pySplitChar sep cs
    else
      match pySplitChar sep cs with
      | [] => [[c]]
      | h :: t => (c :: h) :: t

/-- Model of Python sep.join for a single-character separator. -/
def pyJoinChar (j : Char) : List (List Char) → List Char
  | [] => []
  | [x] => x
  | x :: y :: t => x ++ j :: pyJoinChar j (y :: t)

/-- Characters kept when stripping a trailing run of `c`. -/
def stripTrailing (c : Char) (l : List Char) : List Char :=
  (l.reverse.dropWhile (fun x => x = c)).reverse

/-- Model of posix os.path.basename: the part after the last slash. -/
def pyBasenameL (l : List Char) : List Char :=
  (l.reverse.takeWhile (fun c => !(c = '/'))).reverse

/-- Model of posix os.path.dirname. -/
def pyDirnameL (l : List Char) : List Char :=
  let head := (l.reverse.dropWhile (fun c => !(c = '/'))).reverse
  if head ≠ [] ∧ head.any (fun c => !(c = '/')) then stripTrailing '/' head else head

def pyBasename (p : String) : String := String.mk (pyBasenameL p.data)

def pyDirname (p : String) : String := String.mk (pyDirnameL p.data)

/-- Model of posix os.path.isabs. -/
def pyIsAbs (p : String) : Bool :=
  match p.data with
  | '/' :: _ => true
  | _ => false

/-- Model of posix os.path.join restricted to two arguments. -/
def pyJoinPath (a b : String) : String :=
  if pyIsAbs b then b
  else if a = "" ∨ a.data.getLast? = some '/' then a ++ b
  else a ++ "/" ++ b

/-- One step of the posix os.path.normpath component loop. -/
def normStep (abs1 : Bool) (acc : List (List Char)) (comp : List Char) : List (List Char) :=
  if comp = [] ∨ comp = ['.'] then acc
  else if comp ≠ ['.', '.'] ∨ (¬ abs1 ∧ acc = []) ∨ (acc ≠ [] ∧ acc.getLast? = some ['.', '.']) then
    acc ++ [comp]
  else acc.dropLast

/-- Initial-slash discrimination of posix os.path.normpath: one slash, or
exactly two (two leading slashes not followed by a third). -/
def leadSlashes (cs : List Char) : Nat :=
  match cs with
  | '/' :: '/' :: '/' :: _ => 1
  | '/' :: '/' :: _ => 2
  | '/' :: _ => 1
  | _ => 0

/-- Model of posix os.path.normpath. -/
def pyNormpath (p : String) : String :=
  if p = "" then "." else
  let abs1 := decide (0 < leadSlashes p.data)
  let abs2 := leadSlashes p.data == 2
  let comps := pySplitChar '/' p.data
  let newComps := comps.foldl (normStep abs1) []
  let slashes := if abs2 then "//" else if abs1 then "/" else ""
  let res := slashes ++ String.mk (pyJoinChar '/' newComps)
  if res = "" then "." else res

/-! ## hashlib.md5, embedded as an executable function on byte lists -/

/-- The 64 md5 sine-derived round constants. -/
def md5K : List Nat :=
  [0xd76aa478, 0xe8c7b756, 0x242070db, 0xc1bdceee,
   0xf57c0faf, 0x4787c62a, 0xa8304613, 0xfd469501,
   0x698098d8, 0x8b44f7af, 0xffff5bb1, 0x895cd7be,
   0x6b901122, 0xfd987193, 0xa679438e, 0x49b40821,
   0xf61e2562, 0xc040b340, 0x265e5a51, 0xe9b6c7aa,
   0xd62f105d, 0x02441453, 0xd8a1e681, 0xe7d3fbc8,
   0x21e1cde6, 0xc33707d6, 0xf4d50d87, 0x455a14ed,
   0xa9e3e905, 0xfcefa3f8, 0x676f02d9, 0x8d2a4c8a,
   0xfffa3942, 0x8771f681, 0x6d9d6122, 0xfde5380c,
   0xa4beea44, 0x4bdecfa9, 0xf6bb4b60, 0xbebfbc70,
   0x289b7ec6, 0xeaa127fa, 0xd4ef3085, 0x04881d05,
   0xd9d4d039, 0xe6db99e5, 0x1fa27cf8, 0xc4ac5665,
   0xf4292244, 0x432aff97, 0xab9423a7, 0xfc93a039,
   0x655b59c3, 0x8f0ccc92, 0xffeff47d, 0x85845dd1,
   0x6fa87e4f, 0xfe2ce6e0, 0xa3014314, 0x4e0811a1,
   0xf7537e82, 0xbd3af235, 0x2ad7d2bb, 0xeb86d391]

/-- Per-round left-rotation amounts. -/
def md5S (i : Nat) : Nat :=
  let j := i % 4
  if i < 16 then [7, 12, 17, 22].getD j 0
  else if i < 32 then [5, 9, 14, 20].getD j 0
  else if i < 48 then [4, 11, 16, 23].getD j 0
  else [6, 10, 15, 21].getD j 0

def bnot32 (x : Nat) : Nat := 4294967295 ^^^ x

def rotl32 (x n : Nat) : Nat := ((x <<< n) % 4294967296) ||| (x >>> (32 - n))

/-- The md5 round mixing function. -/
def md5F (i b c d : Nat) : Nat :=
  if i < 16 then (b &&& c) ||| (bnot32 b &&& d)
  else if i < 32 then (d &&& b) ||| (bnot32 d &&& c)
  else if i < 48 then b ^^^ c ^^^ d
  else c ^^^ (b ||| bnot32 d)

/-- The md5 message-word schedule. -/
def md5G (i : Nat) : Nat :=
  if i < 16 then i
  else if i < 32 then (5 * i + 1) % 16
  else if i < 48 then (3 * i + 5) % 16
  else (7 * i) % 16

/-- Little-endian 32-bit word `j` of a 64-byte block. -/
def md5Word (block : List Nat) (j : Nat) : Nat :=
  block.getD (4 * j) 0 + 256 * block.getD (4 * j + 1) 0 +
    65536 * block.getD (4 * j + 2) 0 + 16777216 * block.getD (4 * j + 3) 0

/-- One of the 64 md5 rounds. -/
def md5Step (block : List Nat) (st : Nat × Nat × Nat × Nat) (i : Nat) : Nat × Nat × Nat × Nat :=
  match st with
  | (a, b, c, d) =>
    let f := (md5F i b c d + a + md5K.getD i 0 + md5Word block (md5G i)) % 4294967296
    (d, (b + rotl32 f (md5S i)) % 4294967296, b, c)

/-- Process one 64-byte block. -/
def md5Block (st : Nat × Nat × Nat × Nat) (block : List Nat) : Nat × Nat × Nat × Nat :=
  match st, (List.range 64).foldl (md5Step block) st with
  | (h0, h1, h2, h3), (a, b, c, d) =>
    ((h0 + a) % 4294967296, (h1 + b) % 4294967296, (h2 + c) % 4294967296, (h3 + d) % 4294967296)

/-- Split a byte list into chunks of 64 (fuel-structured recursion). -/
def chunks64F : Nat → List Nat → List (List Nat)
  | 0, _ => []
  | _, [] => []
  | f + 1, l => l.take 64 :: chunks64F f (l.drop 64)

def chunks64 (l : List Nat) : List (List Nat) := chunks64F (l.length + 1) l

/-- md5 padding: 0x80, zeros to 56 mod 64, then the 64-bit little-endian bit length. -/
def md5Pad (msg : List Nat) : List Nat :=
  let len := msg.length
  let k := (64 + 55 - len % 64) % 64
  let bitLen := (8 * len) % 18446744073709551616
  msg ++ 128 :: (List.replicate k 0 ++ (List.range 8).map (fun i => (bitLen >>> (8 * i)) % 256))

def md5Init : Nat × Nat × Nat × Nat := (0x67452301, 0xefcdab89, 0x98badcfe, 0x10325476)

/-- Little-endian byte serialization of a 32-bit word. -/
def le4 (x : Nat) : List Nat := [x % 256, (x >>> 8) % 256, (x >>> 16) % 256, (x >>> 24) % 256]

/-- The 16 digest bytes of md5 of a byte list. -/
def md5Bytes (msg : List Nat) : List Nat :=
  match (chunks64 (md5Pad msg)).foldl md5Block md5Init with
  | (a, b, c, d) => le4 a ++ le4 b ++ le4 c ++ le4 d

/-- Big-endian numeric value of a byte list; equals int(hexdigest, 16) in the source. -/
def bytesToNatBE (bs : List Nat) : Nat := bs.foldl (fun n b => 256 * n + b) 0

/-- UTF-8 encoding of one character, as byte values. -/
def utf8EncodeChar (c : Char) : List Nat :=
  let n := c.toNat
  if n < 128 then [n]
  else if n < 2048 then [192 ||| (n >>> 6), 128 ||| (n &&& 63)]
  else if n < 65536 then
    [224 ||| (n >>> 12), 128 ||| ((n >>> 6) &&& 63), 128 ||| (n &&& 63)]
  else
    [240 ||| (n >>> 18), 128 ||| ((n >>> 12) &&& 63), 128 ||| ((n >>> 6) &&& 63), 128 ||| (n &&& 63)]

/-- Model of text.encode in the source: UTF-8 bytes of a string. -/
def utf8Bytes (s : String) : List Nat :=
  s.data.foldr (fun c r => utf8EncodeChar c ++ r) []

/-- Embedding of simple_hash: MD5 of the UTF-8 text, as a number, mod 2^63. -/
def simple_hash (text : String) : Nat :=
  bytesToNatBE (md5Bytes (utf8Bytes text)) % 9223372036854775808

/-! ## Configuration and the Card data model -/

/-- The configuration options consumed by the embedded pipeline fragment.
Card model templates are kept as (name, qfmt, afmt) triples. -/
structure Config where
  dollar : Bool
  highlight : Bool
  card_model_name : String
  card_model_css : String
  card_model_fields : List String
  card_model_templates : List (String × String × String)
deriving DecidableEq

/-- Embedding of the genanki.Model value built in Card.__init__. -/
structure Model where
  model_id : Nat
  name : String
  fields : List String
  templates : List (String × String × String)
  css : String
deriving DecidableEq

/-- Embedding of the Card class state. -/
structure Card where
  filename : String
  file_index : Nat
  fields : List String
  model : Model
deriving DecidableEq

/-- The genanki.Model Card.__init__ builds: its numeric id is the hash of
the configured model name; the other configured model pieces ride along. -/
def mkModel (cfg : Config) : Model :=
  { model_id := simple_hash cfg.card_model_name,
    name := cfg.card_model_name,
    fields := cfg.card_model_fields,
    templates := cfg.card_model_templates,
    css := cfg.card_model_css }

/-- Embedding of Card.__init__: empty fields, the configured model. -/
def Card.init (cfg : Config) (filename : String) (file_index : Nat) : Card :=
  { filename := filename, file_index := file_index, fields := [], model := mkModel cfg }

def Card.deckdir (c : Card) : String := pyDirname c.filename

def Card.deckname (c : Card) : String := pyBasename c.deckdir

def Card.basename (c : Card) : String := pyBasename c.filename

def Card.card_id (c : Card) : String :=
  c.deckname ++ "/" ++ c.basename ++ toString c.file_index

def Card.add_field (c : Card) (field : String) : Card :=
  { c with fields := c.fields ++ [field] }

/-- Embedding of Card.has_data: some field strips to non-empty text. -/
def Card.has_data (c : Card) : Bool :=
  decide (0 < c.fields.length) && c.fields.any (fun s => !(pyStrip s == ""))

/-- Embedding of Card.has_front_and_back: at least two fields were added. -/
def Card.has_front_and_back (c : Card) : Bool :=
  decide (2 ≤ c.fields.length)

/-- Embedding of Card.finalize: truncate the field list to three entries. -/
def Card.finalize (c : Card) : Card :=
  if 3 < c.fields.length then { c with fields := c.fields.take 3 } else c

def Card.guid (c : Card) : Nat := simple_hash c.card_id

/-- Embedding of Card.make_ref_pair: flatten the reference by joining its
slash-separated pieces with a percent sign, and resolve relative references
against the directory of the source document. -/
def Card.make_ref_pair (c : Card) (filename : String) : String × String :=
  let newname := String.mk (pyJoinChar '%' (pySplitChar '/' filename.data))
  let abspath := if pyIsAbs filename then filename
    else pyNormpath (pyJoinPath c.deckdir filename)
  (abspath, newname)

/-! ## Math-delimiter normalization (field_to_html before rendering) -/

/-- Model of re.split on the pattern that matches `tok` not preceded by a
backslash, as used in field_to_html. Fuel-structured; the wrapper supplies
enough fuel for every input. -/
def splitUnescF (tok : List Char) : Nat → Option Char → List Char → List (List Char)
  | 0, _, cs => [cs]
  | _ + 1, _, [] => [[]]
  | f + 1, prev, c :: cs =>
    if prev ≠ some '\\' ∧ tok ≠ [] ∧ tok.isPrefixOf (c :: cs) then
      [] :: splitUnescF tok f (some (tok.getLastD c)) (cs.drop (tok.length - 1))
    else
      match splitUnescF tok f (some c) cs with
      | [] => [[c]]
      | h :: t => (c :: h) :: t

def splitUnesc (tok cs : List Char) : List (List Char) :=
  splitUnescF tok (cs.length + 1) none cs

/-- The list update field[1::2] = [op + e + cl for e in field[1::2]]. -/
def wrapOdds (op cl : List Char) : List (List Char) → List (List Char)
  | [] => []
  | [x] => [x]
  | x :: y :: t => x :: (op ++ y ++ cl) :: wrapOdds op cl t

/-- One iteration of the dollar-mode loop body: split on the unescaped
separator, wrap every second piece in the delimiters, rejoin. -/
def dollarPass (tok op cl cs : List Char) : List Char :=
  (wrapOdds op cl (splitUnesc tok cs)).flatten

/-- Model of Python str.replace (all occurrences, left to right). -/
def pyReplaceF (pat rep : List Char) : Nat → List Char → List Char
  | 0, cs => cs
  | _ + 1, [] => []
  | f + 1, c :: cs =>
    if pat ≠ [] ∧ pat.isPrefixOf (c :: cs) then
      rep ++ pyReplaceF pat rep f (cs.drop (pat.length - 1))
    else c :: pyReplaceF pat rep f cs

def pyReplace (s pat rep : String) : String :=
  String.mk (pyReplaceF pat.data rep.data (s.data.length + 1) s.data)

/-- The else-branch of field_to_html: double-escape backslashed brackets. -/
def escapeBrackets (s : String) : String :=
  ["(", ")", "[", "]"].foldl (fun f b => pyReplace f ("\\" ++ b) ("\\\\" ++ b)) s

/-- The dollar-mode branch of field_to_html: the block pass then the inline
pass, each wrapping between unescaped separators. -/
def dollarNormalize (s : String) : String :=
  String.mk (dollarPass ['$'] ['\\', '\\', '('] ['\\', '\\', ')']
    (dollarPass ['$', '$'] ['\\', '\\', '['] ['\\', '\\', ']'] s.data))

/-- Embedding of field_to_html. The two markdown renderers (the highlighting
one and the plain one) are external pure functions, per the spec boundary. -/
def field_to_html (cfg : Config) (renderHl render : String → String) (field : String) : String :=
  let field := if cfg.dollar then dollarNormalize field else escapeBrackets field
  if cfg.highlight then renderHl field else render field

/-! ## The remote-image substitution in compile_field

The source applies re.sub with the image pattern: an exclamation mark,
a bracketed alt text without closing brackets inside, an opening paren,
a URL starting with http taken lazily up to a double quote or closing
paren, an optional quoted title, and the closing paren. The matcher below
implements exactly this pattern, with lazy and greedy backtracking made
explicit as ordered candidate enumerations. -/

/-- All splits (u, v) of the input with u free of newlines, shortest u
first: the candidate order of a lazy dot-star. -/
def lazySplits : List Char → List (List Char × List Char)
  | [] => [([], [])]
  | c :: cs =>
    ([], c :: cs) ::
      (if c = '\n' then [] else (lazySplits cs).map (fun p => (c :: p.1, p.2)))

/-- The candidate order of a greedy dot-star: longest first. -/
def greedySplits (cs : List Char) : List (List Char × List Char) :=
  (lazySplits cs).reverse

/-- Match the pattern remainder after the URL group: a lookahead requiring a
double quote or a closing paren, an optional greedy quoted title, then the
closing paren. Returns the text after the whole match. -/
def contMatch : List Char → Option (List Char)
  | '"' :: r =>
    ((greedySplits r).filterMap (fun p =>
      match p.2 with
      | '"' :: ')' :: w => some w
      | _ => none)).head?
  | ')' :: r => some r
  | _ => none

structure ImgMatch where
  g1 : List Char
  url : List Char
  rest : List Char
deriving DecidableEq

/-- Try to match the image pattern at the head of the input. -/
def matchAt (cs : List Char) : Option ImgMatch :=
  match cs with
  | '!' :: '[' :: t =>
    let alt := t.takeWhile (fun c => !(c = ']'))
    match t.dropWhile (fun c => !(c = ']')) with
    | ']' :: '(' :: 'h' :: 't' :: 't' :: 'p' :: t4 =>
      ((lazySplits t4).filterMap (fun p =>
        match contMatch p.2 with
        | some w =>
          some { g1 := '!' :: '[' :: (alt ++ [']']),
                 url := 'h' :: 't' :: 't' :: 'p' :: p.1, rest := w }
        | none => none)).head?
    | _ => none
  | _ => none

/-- The URLs of the image matches found by a left-to-right non-overlapping
scan, the order re.sub processes them in. -/
def scanUrlsF : Nat → List Char → List (List Char)
  | 0, _ => []
  | _ + 1, [] => []
  | f + 1, c :: cs =>
    match matchAt (c :: cs) with
    | some m => m.url :: scanUrlsF f m.rest
    | none => scanUrlsF f cs

def scanUrls (cs : List Char) : List (List Char) := scanUrlsF (cs.length + 1) cs

/-- The outcome of the external blocking HTTP fetch, at its interface
boundary: either a connection error or a response with a status code. -/
inductive FetchResult where
  | connError
  | response (status : Nat)
deriving DecidableEq

/-- A fetch fails when the connection fails or the status is not 200. -/
def fetchFails : FetchResult → Bool
  | .connError => true
  | .response s => !(s == 200)

/-- The exception message raised by _extract_image for a failed fetch. -/
def fetchErrMsg (r : FetchResult) (url fieldtext : String) : String :=
  match r with
  | .connError => "failed to download " ++ url ++ " for markdown: " ++ fieldtext
  | .response _ => "failed to download " ++ url ++ " for markdown:\n\n" ++ fieldtext

/-- Model of urlparse(url).path for the URLs this code fetches: drop the
scheme and authority, stop at a query or fragment. -/
def urlPath (u : List Char) : List Char :=
  let afterScheme := (u.dropWhile (fun c => !(c = ':'))).drop 1
  let rest :=
    if ['/', '/'].isPrefixOf afterScheme then
      (afterScheme.drop 2).dropWhile (fun c => !(c = '/'))
    else afterScheme
  rest.takeWhile (fun c => !(c = '?') && !(c = '#'))

def imageName (url : List Char) : List Char := pyBasenameL (urlPath url)

/-- The replacement text produced by _extract_image on success: the alt
group, then the downloaded image path in the working directory, in parens. -/
def imgReplacement (cwd : String) (g1 url : List Char) : List Char :=
  g1 ++ '(' :: ((pyJoinPath cwd (String.mk (imageName url))).data ++ [')'])

/-- Model of the re.sub call in compile_field, with the fetch threaded as a
fallible external call: the first failing fetch raises, later matches are
not processed, and no partial text is produced. -/
def subImagesF (fetch : String → FetchResult) (fieldtext cwd : String) :
    Nat → List Char → Except String (List Char)
  | 0, cs => .ok cs
  | _ + 1, [] => .ok []
  | f + 1, c :: cs =>
    match matchAt (c :: cs) with
    | some m =>
      let r := fetch (String.mk m.url)
      if fetchFails r then .error (fetchErrMsg r (String.mk m.url) fieldtext)
      else
        match subImagesF fetch fieldtext cwd f m.rest with
        | .error e => .error e
        | .ok tail => .ok (imgReplacement cwd m.g1 m.url ++ tail)
    | none =>
      match subImagesF fetch fieldtext cwd f cs with
      | .error e => .error e
      | .ok tail => .ok (c :: tail)

def subImages (fetch : String → FetchResult) (cwd : String) (cs : List Char) :
    Except String (List Char) :=
  subImagesF fetch (String.mk cs) cwd (cs.length + 1) cs

/-- Embedding of compile_field: join the lines; in markdown mode run the
remote-image substitution (which can abort the build) and render, otherwise
return the raw text. -/
def compile_field (cfg : Config) (fetch : String → FetchResult) (cwd : String)
    (renderHl render : String → String) (field_lines : List String)
    (is_markdown : Bool) : Except String String :=
  let fieldtext := String.join field_lines
  if is_markdown then
    match subImages fetch cwd fieldtext.data with
    | .error e => .error e
    | .ok cs => .ok (field_to_html cfg renderHl render (String.mk cs))
  else .ok fieldtext

/-- The value of compile_field on fields whose text matches no image
pattern, where the fetch is never consulted: join, normalize, render. -/
def pureCompile (cfg : Config) (renderHl render : String → String)
    (field_lines : List String) (is_markdown : Bool) : String :=
  if is_markdown then field_to_html cfg renderHl render (String.join field_lines)
  else String.join field_lines

/-! ## The card parser (produce_cards) -/

/-- Embedding of the loop of produce_cards. The field compiler is passed as
a function argument; fields are compiled at the moment a separator line or
the end of input ends them, in markdown mode exactly when the current card
does not yet have front and back. -/
def produceAux (cfg : Config) (compile : List String → Bool → String)
    (filename : String) :
    List String → List String → Nat → Card → List Card
  | [], fieldLines, _, card =>
    let card := if fieldLines.isEmpty then card
      else card.add_field (compile fieldLines (!card.has_front_and_back))
    if card.has_data then [card] else []
  | line :: rest, fieldLines, i, card =>
    let stripped := pyStrip line
    if stripped = "---" ∨ stripped = "%" then
      let card := card.add_field (compile fieldLines (!card.has_front_and_back))
      if stripped = "---" then
        card :: produceAux cfg compile filename rest [] (i + 1) (Card.init cfg filename (i + 1))
      else produceAux cfg compile filename rest [] i card
    else produceAux cfg compile filename rest (fieldLines ++ [line]) i card

/-- Embedding of produce_cards on a document given as its list of lines,
each line carrying its trailing newline as Python file iteration does. -/
def produce_cards (cfg : Config) (compile : List String → Bool → String)
    (filename : String) (lines : List String) : List Card :=
  produceAux cfg compile filename lines [] 0 (Card.init cfg filename 0)

/-- Modelled from the spec: the candidate cards the parser forms before the
final has-data filter. Identical to the produce_cards machine except that
the final end-of-file candidate is always included. -/
def candidatesAux (cfg : Config) (compile : List String → Bool → String)
    (filename : String) :
    List String → List String → Nat → Card → List Card
  | [], fieldLines, _, card =>
    let card := if fieldLines.isEmpty then card
      else card.add_field (compile fieldLines (!card.has_front_and_back))
    [card]
  | line :: rest, fieldLines, i, card =>
    let stripped := pyStrip line
    if stripped = "---" ∨ stripped = "%" then
      let card := card.add_field (compile fieldLines (!card.has_front_and_back))
      if stripped = "---" then
        card :: candidatesAux cfg compile filename rest [] (i + 1) (Card.init cfg filename (i + 1))
      else candidatesAux cfg compile filename rest [] i card
    else candidatesAux cfg compile filename rest (fieldLines ++ [line]) i card

def produce_candidates (cfg : Config) (compile : List String → Bool → String)
    (filename : String) (lines : List String) : List Card :=
  candidatesAux cfg compile filename lines [] 0 (Card.init cfg filename 0)

/-- Modelled from the claim wording of C3: true when the card already has
two fields with non-whitespace content. -/
def Card.content_front_and_back (c : Card) : Bool :=
  decide (2 ≤ (c.fields.filter (fun s => !(pyStrip s == ""))).length)

/-- Modelled from the claim wording of C3: the parser with the compilation
mode decided by the number of fields with content rather than by the number
of fields. -/
def produceSpecAux (cfg : Config) (compile : List String → Bool → String)
    (filename : String) :
    List String → List String → Nat → Card → List Card
  | [], fieldLines, _, card =>
    let card := if fieldLines.isEmpty then card
      else card.add_field (compile fieldLines (!card.content_front_and_back))
    if card.has_data then [card] else []
  | line :: rest, fieldLines, i, card =>
    let stripped := pyStrip line
    if stripped = "---" ∨ stripped = "%" then
      let card := card.add_field (compile fieldLines (!card.content_front_and_back))
      if stripped = "---" then
        card :: produceSpecAux cfg compile filename rest [] (i + 1) (Card.init cfg filename (i + 1))
      else produceSpecAux cfg compile filename rest [] i card
    else produceSpecAux cfg compile filename rest (fieldLines ++ [line]) i card

def produce_cards_spec (cfg : Config) (compile : List String → Bool → String)
    (filename : String) (lines : List String) : List Card :=
  produceSpecAux cfg compile filename lines [] 0 (Card.init cfg filename 0)

/-! ## Deck assembly (DeckCollection and cards_to_apkg) -/

/-- Embedding of the genanki.Note built by Card.to_genanki_note. -/
structure Note where
  model : Model
  fields : List String
  guid : Nat
deriving DecidableEq

def Card.to_genanki_note (c : Card) : Note :=
  { model := c.model, fields := c.fields, guid := c.guid }

/-- Embedding of a genanki.Deck: deterministic id, name, attached notes. -/
structure Deck where
  deck_id : Nat
  name : String
  notes : List Note
deriving DecidableEq

/-- Embedding of DeckCollection.__getitem__ followed by add_note: get or
create the deck of that name, with id the hash of the name, and append. -/
def addNote (decks : List Deck) (name : String) (note : Note) : List Deck :=
  if decks.any (fun d => d.name == name) then
    decks.map (fun d => if d.name = name then { d with notes := d.notes ++ [note] } else d)
  else decks ++ [{ deck_id := simple_hash name, name := name, notes := [note] }]

/-- Embedding of the card loop of cards_to_apkg, without the media staging
side effects: finalize each card and attach its note to the deck named
after the base name of the directory of its source document. -/
def cards_to_decks (cards : List Card) : List Deck :=
  cards.foldl (fun decks c => addNote decks c.deckname c.finalize.to_genanki_note) []

/-- The notes attached to decks of a given name, in order. -/
def notesOf (decks : List Deck) (n : String) : List Note :=
  ((decks.filter (fun d => d.name == n)).map (fun d => d.notes)).flatten

/-- The deck names present in a collection. -/
def deckNames (decks : List Deck) : List String := decks.map (fun d => d.name)

/-! ## Concrete fixtures used by counterexamples and witnesses -/

/-- A configuration instance with the stock model name, dollar mode and
highlighting off. -/
def testCfg : Config :=
  ⟨false, false, "Ankdown Model 2", "", ["Question", "Answer", "Tags"], []⟩

/-- A configuration agreeing with testCfg on the model name only. -/
def otherCfg : Config :=
  ⟨false, false, "Ankdown Model 2", "other css", ["Q"], [("t", "q", "a")]⟩

/-- The identity stand-in for the external markdown renderer. -/
def idRender : String → String := fun s => s

/-- A renderer stand-in that marks non-empty rendered text, distinguishing
rendered output from raw text. -/
def tagRender : String → String := fun s => if s = "" then "" else "R" ++ s

/-- The character preceding the position right after a segment: its last
character, or the incoming previous character when the segment is empty.
This is the character the lookbehind of the dollar-mode patterns inspects
at the next scanner position. -/
def lastCharD : Option Char → List Char → Option Char
  | prev, [] => prev
  | _, c :: cs => lastCharD (some c) cs

/-- Every dollar sign is escaped: scanning from the given previous
character, each dollar sign is immediately preceded by a backslash, so the
lookbehind rejects every occurrence. -/
def dollarsEscapedFrom : Option Char → List Char → Bool
  | _, [] => true
  | prev, c :: cs =>
    ((!(c == '$')) || (prev == some '\\')) && dollarsEscapedFrom (some c) cs

/-- No unescaped occurrence of two adjacent dollar signs: at every position
where two dollar signs are adjacent, the character before them is a
backslash. -/
def noUnescDD : Option Char → List Char → Bool
  | _, [] => true
  | _, [_] => true
  | prev, c :: c2 :: t =>
    (!((!(prev == some '\\')) && c == '$' && c2 == '$')) && noUnescDD (some c) (c2 :: t)

/-- The segments of a field around its unescaped dollar delimiters: every
remaining dollar sign inside a segment is escaped, and the character just
before each delimiter is not a backslash, so each delimiter is unescaped.
The previous-character chain threads a dollar sign across each delimiter,
as the scanner sees it. -/
def splitOkB : Option Char → List (List Char) → Bool
  | _, [] => true
  | prev, [p] => dollarsEscapedFrom prev p
  | prev, p :: q :: rest =>
    dollarsEscapedFrom prev p && (!(lastCharD prev p == some '\\')) &&
      splitOkB (some '$') (q :: rest)

/-- Every segment lying strictly between two delimiters is non-empty, so
no two single-dollar delimiters are adjacent. -/
def interiorNE : List (List Char) → Bool
  | [] => true
  | [_] => true
  | _ :: q :: rest => (rest.isEmpty || !q.isEmpty) && interiorNE (q :: rest)

/-- Segments joined by the two-character block delimiter. -/
def joinSep2 : List (List Char) → List Char
  | [] => []
  | [x] => x
  | x :: y :: t => x ++ '$' :: '$' :: joinSep2 (y :: t)

/-- Substring containment on character lists. -/
def containsSub (needle hay : List Char) : Prop :=
  ∃ l r, hay = l ++ needle ++ r

/-- The number of lines of a document that strip to the card separator. -/
def sepCount (lines : List String) : Nat :=
  lines.countP (fun l => pyStrip l == "---")

/-! # Theorems -/

/-! ## Helper lemmas on the Python string primitives -/

theorem pySplitChar_ne_nil (sep : Char) (cs : List Char) : pySplitChar sep cs ≠ [] := by
  cases cs with
  | nil => simp [pySplitChar]
  | cons c cs =>
    simp only [pySplitChar]
    split
    · simp
    · split <;> simp

theorem pyJoinChar_cons_cons (j : Char) (c : Char) (h : List Char) (t : List (List Char)) :
    pyJoinChar j ((c :: h) :: t) = c :: pyJoinChar j (h :: t) := by
  cases t <;> simp [pyJoinChar]

theorem split_join_replace (sep rep : Char) :
    ∀ cs : List Char, pyJoinChar rep (pySplitChar sep cs) =
      cs.map (fun c => if c = sep then rep else c) := by
  intro cs
  induction cs with
  | nil => simp [pySplitChar, pyJoinChar]
  | cons c cs ih =>
    simp only [pySplitChar, List.map_cons]
    by_cases hc : c = sep
    · simp only [if_pos hc]
      rcases hl : pySplitChar sep cs with _ | ⟨h, t⟩
      · exact absurd hl (pySplitChar_ne_nil sep cs)
      · rw [hl] at ih
        simp [pyJoinChar, ← ih, hc]
    · simp only [if_neg hc]
      rcases hl : pySplitChar sep cs with _ | ⟨h, t⟩
      · exact absurd hl (pySplitChar_ne_nil sep cs)
      · rw [hl] at ih
        simp only [pyJoinChar_cons_cons, ← ih]

/-! ## C5: card identity -/

/-- C5: the identity key of a card is the string concatenation of the deck
name, a slash, the base name of the source path, and the in-file index; the
card numeric id is its hash and lies below 2^63; identical filename and
index give identical ids (determinism across runs), and the deck id created
for a name is its hash regardless of the notes of the run. -/
theorem C5_identity (c c2 : Card) (hf : c.filename = c2.filename)
    (hi : c.file_index = c2.file_index) :
    c.card_id = c.deckname ++ "/" ++ c.basename ++ toString c.file_index ∧
    c.guid = simple_hash c.card_id ∧
    c.guid < 9223372036854775808 ∧
    c.guid = c2.guid ∧
    (∀ (n : String) (note note2 : Note),
      (addNote [] n note).map (fun d => d.deck_id) =
        (addNote [] n note2).map (fun d => d.deck_id)) := by
  refine ⟨rfl, rfl, Nat.mod_lt _ (by norm_num), ?_, ?_⟩
  · simp [Card.guid, Card.card_id, Card.deckname, Card.deckdir, Card.basename, hf, hi]
  · intro n note note2
    simp [addNote]

/-- Witness for C5 at a concrete card: a second card differing in its
fields but agreeing on filename and index has the same id; the id value is
the md5-derived number, below 2^63. -/
theorem C5_identity_witness :
    (Card.init testCfg "deck1/card.md" 0).guid =
      ((Card.init testCfg "deck1/card.md" 0).add_field "x").guid ∧
    (Card.init testCfg "deck1/card.md" 0).guid < 9223372036854775808 ∧
    (Card.init testCfg "deck1/card.md" 0).guid = 4472501068217197871 := by
  have h := C5_identity (Card.init testCfg "deck1/card.md" 0)
    ((Card.init testCfg "deck1/card.md" 0).add_field "x") rfl rfl
  exact ⟨h.2.2.2.1, h.2.2.1, by decide⟩

/-! ## C7: media reference resolution and flattening -/

/-- C7: make_ref_pair resolves a relative reference against the directory
of the source document, keeps an absolute reference as is, and flattens the
original reference by replacing every path separator with a percent sign,
leaving no separator in the flat name; the documented round trip holds for
images/diagram.png relative to deck1/card.md. -/
theorem C7_make_ref_pair (c : Card) (ref : String) :
    (c.make_ref_pair ref).1 =
      (if pyIsAbs ref then ref else pyNormpath (pyJoinPath c.deckdir ref)) ∧
    (c.make_ref_pair ref).2 =
      String.mk (ref.data.map (fun ch => if ch = '/' then '%' else ch)) ∧
    (∀ ch ∈ ((c.make_ref_pair ref).2).data, ch ≠ '/') ∧
    (Card.init testCfg "deck1/card.md" 0).make_ref_pair "images/diagram.png" =
      ("deck1/images/diagram.png", "images%diagram.png") := by
  refine ⟨rfl, congrArg String.mk (split_join_replace '/' '%' ref.data), ?_, by decide⟩
  intro ch hch
  have : ((c.make_ref_pair ref).2).data = ref.data.map (fun ch => if ch = '/' then '%' else ch) :=
    split_join_replace '/' '%' ref.data
  rw [this] at hch
  obtain ⟨x, _, hx⟩ := List.mem_map.mp hch
  subst hx
  by_cases h : x = '/' <;> simp [h]

/-! ## C10: the model id depends only on the configured model name -/

theorem add_field_model (c : Card) (f : String) : (c.add_field f).model = c.model := rfl

theorem produceAux_model_inv (cfg : Config) (compile : List String → Bool → String)
    (fn : String) :
    ∀ (lines fieldLines : List String) (i : Nat) (card : Card),
      card.model = mkModel cfg →
      ∀ c ∈ produceAux cfg compile fn lines fieldLines i card, c.model = mkModel cfg := by
  intro lines
  induction lines with
  | nil =>
    intro fieldLines i card hcard c hc
    simp only [produceAux] at hc
    split at hc <;> split at hc <;>
      first
        | exact absurd hc (List.not_mem_nil c)
        | (rw [List.mem_singleton] at hc; subst hc; simp [add_field_model, hcard])
  | cons line rest ih =>
    intro fieldLines i card hcard c hc
    simp only [produceAux] at hc
    split at hc
    · split at hc
      · rcases List.mem_cons.mp hc with h | h
        · subst h
          simp [add_field_model, hcard]
        · exact ih [] (i + 1) (Card.init cfg fn (i + 1)) rfl c h
      · exact ih [] i _ (by simp [add_field_model, hcard]) c hc
    · exact ih (fieldLines ++ [line]) i card hcard c hc

/-- C10: every produced card carries the model id that is the hash of the
configured model name, and two configurations agreeing on the model name
give identical model ids to all of their cards, whatever their css, fields
and templates are. -/
theorem C10_model_id (cfg cfg2 : Config) (h : cfg.card_model_name = cfg2.card_model_name)
    (compile compile2 : List String → Bool → String) (fn fn2 : String)
    (lines lines2 : List String) :
    (∀ c ∈ produce_cards cfg compile fn lines,
      c.model.model_id = simple_hash cfg.card_model_name) ∧
    (∀ c ∈ produce_cards cfg compile fn lines,
      ∀ c2 ∈ produce_cards cfg2 compile2 fn2 lines2,
        c.model.model_id = c2.model.model_id) := by
  have h1 : ∀ c ∈ produce_cards cfg compile fn lines,
      c.model.model_id = simple_hash cfg.card_model_name := by
    intro c hc
    have := produceAux_model_inv cfg compile fn lines [] 0 (Card.init cfg fn 0) rfl c hc
    rw [this]
    rfl
  have h2 : ∀ c2 ∈ produce_cards cfg2 compile2 fn2 lines2,
      c2.model.model_id = simple_hash cfg2.card_model_name := by
    intro c2 hc2
    have := produceAux_model_inv cfg2 compile2 fn2 lines2 [] 0 (Card.init cfg2 fn2 0) rfl c2 hc2
    rw [this]
    rfl
  refine ⟨h1, fun c hc c2 hc2 => ?_⟩
  rw [h1 c hc, h2 c2 hc2, h]

/-- Witness for C10 at two concrete configurations differing in css, model
fields and templates but agreeing on the model name: concrete cards from
both runs carry the same model id. -/
theorem C10_model_id_witness :
    ∃ c ∈ produce_cards testCfg (pureCompile testCfg idRender idRender) "f.md" ["hi\n"],
      ∃ c2 ∈ produce_cards otherCfg (pureCompile otherCfg idRender idRender) "g.md" ["ho\n"],
        c.model.model_id = c2.model.model_id := by
  have h := (C10_model_id testCfg otherCfg rfl
    (pureCompile testCfg idRender idRender) (pureCompile otherCfg idRender idRender)
    "f.md" "g.md" ["hi\n"] ["ho\n"]).2
  refine ⟨(Card.init testCfg "f.md" 0).add_field "hi\n", by decide,
    (Card.init otherCfg "g.md" 0).add_field "ho\n", by decide, ?_⟩
  exact h _ (by decide) _ (by decide)

/-! ## Parser structure lemmas shared by C1 and C2 -/

theorem produce_bridge (cfg : Config) (compile : List String → Bool → String) (fn : String) :
    ∀ (lines fieldLines : List String) (i : Nat) (card : Card),
      ∃ pre last, candidatesAux cfg compile fn lines fieldLines i card = pre ++ [last] ∧
        produceAux cfg compile fn lines fieldLines i card =
          pre ++ (if last.has_data then [last] else []) := by
  intro lines
  induction lines with
  | nil =>
    intro fieldLines i card
    exact ⟨[], _, rfl, rfl⟩
  | cons line rest ih =>
    intro fieldLines i card
    by_cases hsep : pyStrip line = "---" ∨ pyStrip line = "%"
    · by_cases hdash : pyStrip line = "---"
      · obtain ⟨pre, last, hc, hp⟩ := ih [] (i + 1) (Card.init cfg fn (i + 1))
        refine ⟨card.add_field (compile fieldLines (!card.has_front_and_back)) :: pre, last, ?_, ?_⟩
        · simp only [candidatesAux]
          rw [if_pos hsep, if_pos hdash, hc]
          rfl
        · simp only [produceAux]
          rw [if_pos hsep, if_pos hdash, hp]
          rfl
      · obtain ⟨pre, last, hc, hp⟩ :=
          ih [] i (card.add_field (compile fieldLines (!card.has_front_and_back)))
        refine ⟨pre, last, ?_, ?_⟩
        · simp only [candidatesAux]
          rw [if_pos hsep, if_neg hdash]
          exact hc
        · simp only [produceAux]
          rw [if_pos hsep, if_neg hdash]
          exact hp
    · obtain ⟨pre, last, hc, hp⟩ := ih (fieldLines ++ [line]) i card
      refine ⟨pre, last, ?_, ?_⟩
      · simp only [candidatesAux]
        rw [if_neg hsep]
        exact hc
      · simp only [produceAux]
        rw [if_neg hsep]
        exact hp

theorem add_field_index (c : Card) (f : String) : (c.add_field f).file_index = c.file_index := rfl

theorem candidates_indices (cfg : Config) (compile : List String → Bool → String) (fn : String) :
    ∀ (lines fieldLines : List String) (i : Nat) (card : Card), card.file_index = i →
      (candidatesAux cfg compile fn lines fieldLines i card).map (fun c => c.file_index) =
        List.range' i (sepCount lines + 1) := by
  intro lines
  induction lines with
  | nil =>
    intro fieldLines i card hci
    simp only [candidatesAux, sepCount, List.countP_nil, List.map]
    split <;> simp [add_field_index, hci, List.range']
  | cons line rest ih =>
    intro fieldLines i card hci
    by_cases hsep : pyStrip line = "---" ∨ pyStrip line = "%"
    · by_cases hdash : pyStrip line = "---"
      · have hcnt : sepCount (line :: rest) = sepCount rest + 1 := by
          simp [sepCount, List.countP_cons, hdash]
        simp only [candidatesAux]
        rw [if_pos hsep, if_pos hdash]
        rw [hcnt]
        simp only [List.map_cons]
        rw [ih [] (i + 1) (Card.init cfg fn (i + 1)) rfl]
        rw [add_field_index, hci]
        rfl
      · have hcnt : sepCount (line :: rest) = sepCount rest := by
          simp [sepCount, List.countP_cons, hdash]
        simp only [candidatesAux]
        rw [if_pos hsep, if_neg hdash, hcnt]
        exact ih [] i _ (by rw [add_field_index, hci])
    · have hdash : ¬ pyStrip line = "---" := fun h => hsep (Or.inl h)
      have hcnt : sepCount (line :: rest) = sepCount rest := by
        simp [sepCount, List.countP_cons, hdash]
      simp only [candidatesAux]
      rw [if_neg hsep, hcnt]
      exact ih (fieldLines ++ [line]) i card hci

/-! ## C2: candidate count and indices -/

/-- C2: a document whose lines strip to the card separator exactly n times
yields exactly n + 1 candidate cards before the has-data filter, with file
indices 0 .. n in order, and the emitted cards are an initial segment of
those candidates. -/
theorem C2_candidate_count (cfg : Config) (compile : List String → Bool → String)
    (fn : String) (lines : List String) :
    (produce_candidates cfg compile fn lines).length = sepCount lines + 1 ∧
    (produce_candidates cfg compile fn lines).map (fun c => c.file_index) =
      List.range (sepCount lines + 1) ∧
    ∃ t, produce_cards cfg compile fn lines ++ t = produce_candidates cfg compile fn lines := by
  have hidx := candidates_indices cfg compile fn lines [] 0 (Card.init cfg fn 0) rfl
  have hlen : (produce_candidates cfg compile fn lines).length = sepCount lines + 1 := by
    have := congrArg List.length hidx
    simpa using this
  refine ⟨hlen, by rw [List.range_eq_range']; exact hidx, ?_⟩
  obtain ⟨pre, last, hc, hp⟩ := produce_bridge cfg compile fn lines [] 0 (Card.init cfg fn 0)
  by_cases h : last.has_data
  · refine ⟨[], ?_⟩
    rw [List.append_nil]
    show produceAux cfg compile fn lines [] 0 (Card.init cfg fn 0) =
      candidatesAux cfg compile fn lines [] 0 (Card.init cfg fn 0)
    rw [hp, hc, if_pos h]
  · refine ⟨[last], ?_⟩
    show produceAux cfg compile fn lines [] 0 (Card.init cfg fn 0) ++ [last] =
      candidatesAux cfg compile fn lines [] 0 (Card.init cfg fn 0)
    rw [hp, hc, if_neg h]
    simp

/-! ## C1: the has-data filter applies only to the final candidate -/

/-- C1 counterexample: a document consisting of a single card-separator
line makes produce_cards yield a card with one compiled field and no
non-whitespace data, so not every emitted card has data. -/
theorem C1_counterexample :
    (produce_cards testCfg (pureCompile testCfg idRender idRender) "f.md" ["---"]).all
      (fun c => c.has_data) = false := by decide

/-- C1 amended: a card ended by a card-separator line is emitted without
any has-data check; only the final end-of-file candidate is filtered, being
emitted exactly when it has a field with non-whitespace content. -/
theorem C1_amended (cfg : Config) (compile : List String → Bool → String)
    (fn : String) (lines : List String) :
    ∃ pre last, produce_candidates cfg compile fn lines = pre ++ [last] ∧
      produce_cards cfg compile fn lines = pre ++ (if last.has_data then [last] else []) :=
  produce_bridge cfg compile fn lines [] 0 (Card.init cfg fn 0)

/-! ## C9: documents with no delimiter lines -/

theorem produceAux_no_sep (cfg : Config) (compile : List String → Bool → String) (fn : String) :
    ∀ (lines fieldLines : List String) (i : Nat) (card : Card),
      (∀ l ∈ lines, ¬(pyStrip l = "---" ∨ pyStrip l = "%")) →
      produceAux cfg compile fn lines fieldLines i card =
        produceAux cfg compile fn [] (fieldLines ++ lines) i card := by
  intro lines
  induction lines with
  | nil =>
    intro fieldLines i card _
    rw [List.append_nil]
  | cons l rest ih =>
    intro fieldLines i card h
    have hl : ¬(pyStrip l = "---" ∨ pyStrip l = "%") := h l (List.mem_cons_self l rest)
    show produceAux cfg compile fn (l :: rest) fieldLines i card = _
    simp only [produceAux]
    rw [if_neg hl]
    rw [ih (fieldLines ++ [l]) i card (fun x hx => h x (List.mem_cons_of_mem l hx))]
    rw [List.append_assoc]
    rfl

/-- C9 counterexample: a whitespace-only document has no delimiter lines
but produces zero cards rather than exactly one, because the single
compiled field strips to nothing and the final candidate is filtered. -/
theorem C9_counterexample :
    (∀ l ∈ ["\n"], ¬(pyStrip l = "---" ∨ pyStrip l = "%")) ∧
    produce_cards testCfg (pureCompile testCfg idRender idRender) "f.md" ["\n"] = [] := by
  exact ⟨by decide, by decide⟩

/-- C9 amended: a non-empty document with no delimiter lines yields exactly
one card whose single field is the compiled form of the whole text when
that compiled form has non-whitespace content, and no card otherwise. -/
theorem C9_amended (cfg : Config) (compile : List String → Bool → String)
    (fn : String) (lines : List String)
    (hnd : ∀ l ∈ lines, ¬(pyStrip l = "---" ∨ pyStrip l = "%")) (hne : lines ≠ []) :
    produce_cards cfg compile fn lines =
      if pyStrip (compile lines true) = "" then []
      else [(Card.init cfg fn 0).add_field (compile lines true)] := by
  obtain ⟨l, rest, rfl⟩ := List.exists_cons_of_ne_nil hne
  show produceAux cfg compile fn (l :: rest) [] 0 (Card.init cfg fn 0) = _
  rw [produceAux_no_sep cfg compile fn (l :: rest) [] 0 _ hnd]
  simp only [produceAux, List.nil_append, List.isEmpty_cons, Bool.false_eq_true, if_false]
  by_cases hf : pyStrip (compile (l :: rest) true) = "" <;>
    simp [Card.has_data, Card.add_field, Card.init, Card.has_front_and_back, hf]

/-- Witness for C9 amended at a concrete one-line document with
non-whitespace content. -/
theorem C9_amended_witness :
    produce_cards testCfg (pureCompile testCfg idRender idRender) "f.md" ["T\n"] =
      if pyStrip (pureCompile testCfg idRender idRender ["T\n"] true) = "" then []
      else [(Card.init testCfg "f.md" 0).add_field
        (pureCompile testCfg idRender idRender ["T\n"] true)] :=
  C9_amended testCfg (pureCompile testCfg idRender idRender) "f.md" ["T\n"]
    (by decide) (by decide)

/-! ## C3: field compilation mode -/

theorem add_field_mapIdx (compile : List String → Bool → String) (card : Card)
    (fls : List (List String)) (fl : List String)
    (h : card.fields = fls.mapIdx (fun k ls => compile ls (decide (k < 2)))) :
    (card.add_field (compile fl (!card.has_front_and_back))).fields =
      (fls ++ [fl]).mapIdx (fun k ls => compile ls (decide (k < 2))) := by
  have hlen : card.fields.length = fls.length := by
    rw [h, List.length_mapIdx]
  have hmode : (!card.has_front_and_back) = decide (fls.length < 2) := by
    rw [Card.has_front_and_back, hlen, ← decide_not, decide_eq_decide]
    exact Nat.not_le
  show card.fields ++ [compile fl (!card.has_front_and_back)] = _
  rw [h, hmode, List.mapIdx_append]
  simp

theorem produceAux_mode_inv (cfg : Config) (compile : List String → Bool → String)
    (fn : String) :
    ∀ (lines fieldLines : List String) (i : Nat) (card : Card),
      (∃ fls : List (List String),
        card.fields = fls.mapIdx (fun k ls => compile ls (decide (k < 2)))) →
      ∀ c ∈ produceAux cfg compile fn lines fieldLines i card,
        ∃ fls : List (List String),
          c.fields = fls.mapIdx (fun k ls => compile ls (decide (k < 2))) := by
  intro lines
  induction lines with
  | nil =>
    intro fieldLines i card hcard c hc
    obtain ⟨fls, hfls⟩ := hcard
    simp only [produceAux] at hc
    split at hc <;> split at hc <;>
      first
        | exact absurd hc (List.not_mem_nil c)
        | (rw [List.mem_singleton] at hc; subst hc;
           exact ⟨_, by first | exact hfls | exact add_field_mapIdx compile card fls _ hfls⟩)
  | cons line rest ih =>
    intro fieldLines i card hcard c hc
    obtain ⟨fls, hfls⟩ := hcard
    simp only [produceAux] at hc
    split at hc
    · split at hc
      · rcases List.mem_cons.mp hc with h | h
        · subst h
          exact ⟨_, add_field_mapIdx compile card fls _ hfls⟩
        · exact ih [] (i + 1) (Card.init cfg fn (i + 1)) ⟨[], rfl⟩ c h
      · exact ih [] i _ ⟨_, add_field_mapIdx compile card fls _ hfls⟩ c hc
    · exact ih (fieldLines ++ [line]) i card ⟨fls, hfls⟩ c hc

/-- C3 counterexample: the compilation mode is decided by the number of
fields already added, not by the number of fields with content. On a
document whose first two fields are empty, the parser that follows the
claim wording (content-based mode) renders the third field in markdown
mode, while the code compiles it as plain text, so the two disagree. -/
theorem C3_counterexample :
    produce_cards testCfg (pureCompile testCfg tagRender tagRender) "f.md"
        ["%\n", "%\n", "hello"] ≠
      produce_cards_spec testCfg (pureCompile testCfg tagRender tagRender) "f.md"
        ["%\n", "%\n", "hello"] := by decide

/-- C3 amended: every produced card was compiled field by field, the field
at position k in markdown mode exactly when k is below two, so the first
two fields of a card are rich text and the third and any later field are
compiled in plain-text mode, independently of field content. -/
theorem C3_amended (cfg : Config) (compile : List String → Bool → String)
    (fn : String) (lines : List String) (card : Card)
    (hc : card ∈ produce_cards cfg compile fn lines) :
    ∃ fls : List (List String),
      card.fields = fls.mapIdx (fun k ls => compile ls (decide (k < 2))) :=
  produceAux_mode_inv cfg compile fn lines [] 0 (Card.init cfg fn 0) ⟨[], rfl⟩ card hc

/-- Witness for C3 amended at a concrete three-field document. -/
theorem C3_amended_witness :
    ∃ fls : List (List String),
      ((((Card.init testCfg "f.md" 0).add_field "a\n").add_field "b\n").add_field "c\n").fields =
        fls.mapIdx (fun k ls =>
          pureCompile testCfg idRender idRender ls (decide (k < 2))) :=
  C3_amended testCfg (pureCompile testCfg idRender idRender) "f.md"
    ["a\n", "%\n", "b\n", "%\n", "c\n"] _ (by decide)

/-! ## C4: deck grouping -/

theorem notesOf_cons (d : Deck) (l : List Deck) (m : String) :
    notesOf (d :: l) m = (if d.name == m then d.notes else []) ++ notesOf l m := by
  by_cases h : d.name == m <;> simp_all [notesOf, List.filter_cons]

theorem notesOf_append (decks decks2 : List Deck) (n : String) :
    notesOf (decks ++ decks2) n = notesOf decks n ++ notesOf decks2 n := by
  simp [notesOf, List.filter_append]

theorem notesOf_nil_of_not_mem (m : String) :
    ∀ decks : List Deck, (∀ d ∈ decks, ¬ d.name = m) → notesOf decks m = [] := by
  intro decks h
  have : decks.filter (fun d => d.name == m) = [] := by
    rw [List.filter_eq_nil_iff]
    intro d hd
    simpa using h d hd
  simp [notesOf, this]

theorem notesOf_update (name m : String) (note : Note) :
    ∀ decks : List Deck, (decks.map (fun d => d.name)).Nodup →
      notesOf (decks.map (fun d =>
          if d.name = name then { d with notes := d.notes ++ [note] } else d)) m =
        notesOf decks m ++
          (if decks.any (fun d => d.name == name) && (name == m) then [note] else []) := by
  intro decks
  induction decks with
  | nil => intro _; simp [notesOf]
  | cons d ds ih =>
    intro hnd
    have hnd2 : (ds.map (fun d => d.name)).Nodup := (List.nodup_cons.mp hnd).2
    have hdnot : d.name ∉ ds.map (fun d => d.name) := (List.nodup_cons.mp hnd).1
    by_cases hd : d.name = name
    · have hds : ds.any (fun d2 => d2.name == name) = false := by
        rw [List.any_eq_false]
        intro d2 hd2
        simp only [beq_iff_eq]
        intro heq
        exact hdnot (by rw [hd, ← heq]; exact List.mem_map_of_mem _ hd2)
      by_cases hm : name = m
      · subst hm
        have hnil : notesOf ds name = [] := by
          apply notesOf_nil_of_not_mem
          intro d2 hd2 heq
          exact hdnot (by rw [hd, ← heq]; exact List.mem_map_of_mem _ hd2)
        rw [List.map_cons, notesOf_cons, ih hnd2, List.any_cons]
        simp [notesOf_cons, hds, hd, hnil]
      · have hdm : (d.name == m) = false := by simp [hd, hm]
        have hmb : (name == m) = false := by simp [hm]
        rw [List.map_cons, notesOf_cons, ih hnd2, List.any_cons]
        simp [notesOf_cons, hds, hd, hdm, hmb]
    · have hdn : (d.name == name) = false := by simp [hd]
      rw [List.map_cons, notesOf_cons, ih hnd2, List.any_cons]
      simp [notesOf_cons, hd, hdn, List.append_assoc]

theorem notesOf_addNote (decks : List Deck) (name : String) (note : Note)
    (hnd : (decks.map (fun d => d.name)).Nodup) (m : String) :
    notesOf (addNote decks name note) m =
      notesOf decks m ++ (if name = m then [note] else []) := by
  unfold addNote
  split
  case isTrue hany =>
    rw [notesOf_update name m note decks hnd, hany]
    by_cases hm : name = m <;> simp [hm]
  case isFalse hany =>
    rw [notesOf_append]
    by_cases hm : name = m <;> simp [notesOf, hm]

theorem addNote_names_nodup (decks : List Deck) (name : String) (note : Note)
    (hnd : (decks.map (fun d => d.name)).Nodup) :
    ((addNote decks name note).map (fun d => d.name)).Nodup := by
  unfold addNote
  split
  case isTrue hany =>
    have hmap : (decks.map (fun d =>
        if d.name = name then { d with notes := d.notes ++ [note] } else d)).map
          (fun d => d.name) = decks.map (fun d => d.name) := by
      rw [List.map_map]
      apply List.map_congr_left
      intro d _
      by_cases hd : d.name = name <;> simp [hd]
    rw [hmap]
    exact hnd
  case isFalse hany =>
    have hany2 : (decks.any fun d => d.name == name) = false := by
      simpa using hany
    have hnot : name ∉ decks.map (fun d => d.name) := by
      intro hmem
      obtain ⟨d, hd, hdn⟩ := List.mem_map.mp hmem
      rw [List.any_eq_false] at hany2
      exact absurd (by simp [hdn]) (hany2 d hd)
    simp [List.map_append, List.nodup_append, hnd, hnot]

theorem addNote_ids (decks : List Deck) (name : String) (note : Note)
    (hids : ∀ d ∈ decks, d.deck_id = simple_hash d.name) :
    ∀ d ∈ addNote decks name note, d.deck_id = simple_hash d.name := by
  unfold addNote
  split
  · intro d hd
    obtain ⟨d0, hd0, hde⟩ := List.mem_map.mp hd
    by_cases hn : d0.name = name
    · rw [if_pos hn] at hde
      rw [← hde]
      exact hids d0 hd0
    · rw [if_neg hn] at hde
      rw [← hde]
      exact hids d0 hd0
  · intro d hd
    rcases List.mem_append.mp hd with h | h
    · exact hids d h
    · rw [List.mem_singleton] at h
      rw [h]

theorem cards_fold_inv (cards : List Card) : ∀ acc : List Deck,
    (acc.map (fun d => d.name)).Nodup →
    (∀ d ∈ acc, d.deck_id = simple_hash d.name) →
    (((cards.foldl (fun decks c => addNote decks c.deckname c.finalize.to_genanki_note)
        acc).map (fun d => d.name)).Nodup ∧
     (∀ d ∈ cards.foldl (fun decks c => addNote decks c.deckname c.finalize.to_genanki_note)
        acc, d.deck_id = simple_hash d.name) ∧
     ∀ m, notesOf (cards.foldl
          (fun decks c => addNote decks c.deckname c.finalize.to_genanki_note) acc) m =
        notesOf acc m ++
          (cards.filter (fun c => c.deckname == m)).map (fun c => c.finalize.to_genanki_note)) := by
  induction cards with
  | nil =>
    intro acc hnd hids
    exact ⟨hnd, hids, fun m => by simp⟩
  | cons c cs ih =>
    intro acc hnd hids
    have hnd2 := addNote_names_nodup acc c.deckname c.finalize.to_genanki_note hnd
    have hids2 := addNote_ids acc c.deckname c.finalize.to_genanki_note hids
    obtain ⟨h1, h2, h3⟩ := ih (addNote acc c.deckname c.finalize.to_genanki_note) hnd2 hids2
    refine ⟨?_, ?_, fun m => ?_⟩
    · rw [List.foldl_cons]
      exact h1
    · rw [List.foldl_cons]
      exact h2
    · rw [List.foldl_cons, h3 m,
        notesOf_addNote acc c.deckname c.finalize.to_genanki_note hnd m, List.filter_cons]
      by_cases hm : c.deckname = m
      · have hb : (c.deckname == m) = true := by simp [hm]
        simp [hm, hb, List.append_assoc]
      · have hb : (c.deckname == m) = false := by simp [hm]
        simp [hm, hb]

/-- C4 counterexample: two documents in different directories whose
directory base names coincide are merged into a single deck, refuting the
claim that documents in different directories never share a deck. -/
theorem C4_counterexample :
    pyDirname "a/x/f.md" ≠ pyDirname "b/x/g.md" ∧
    (cards_to_decks [(Card.init testCfg "a/x/f.md" 0).add_field "hi",
        (Card.init testCfg "b/x/g.md" 0).add_field "ho"]).length = 1 := by
  exact ⟨by decide, by decide⟩

/-- C4 amended: during deck assembly a card is attached to the deck named
by the base name of the directory of its source document, whose numeric id
is the hash of that name; the notes of the deck of a given name are exactly
the notes of the cards with that deck name, in order. Two documents in the
same directory therefore share a deck, but two documents in different
directories also share one whenever the base names of their directories
coincide. -/
theorem C4_deck_grouping (cards : List Card) :
    (∀ d ∈ cards_to_decks cards, d.deck_id = simple_hash d.name) ∧
    (∀ m, notesOf (cards_to_decks cards) m =
      (cards.filter (fun c => c.deckname == m)).map (fun c => c.finalize.to_genanki_note)) ∧
    (∀ c c2 : Card, pyDirname c.filename = pyDirname c2.filename →
      c.deckname = c2.deckname) ∧
    (∀ c c2 : Card, c.deckname = c2.deckname ↔
      pyBasename (pyDirname c.filename) = pyBasename (pyDirname c2.filename)) := by
  obtain ⟨_, h2, h3⟩ := cards_fold_inv cards [] (by simp) (by simp)
  refine ⟨h2, fun m => by simp only [cards_to_decks]; rw [h3 m]; simp [notesOf], ?_, ?_⟩
  · intro c c2 h
    show pyBasename c.deckdir = pyBasename c2.deckdir
    rw [Card.deckdir, Card.deckdir, h]
  · intro c c2
    exact Iff.rfl

/-- Witness for C4 at the two concrete cards of the counterexample input:
the merged deck carries the hash of the shared base name as its id, and its
notes are the two card notes in order. -/
theorem C4_deck_grouping_witness :
    notesOf (cards_to_decks [(Card.init testCfg "a/x/f.md" 0).add_field "hi",
        (Card.init testCfg "b/x/g.md" 0).add_field "ho"]) "x" =
      ([(Card.init testCfg "a/x/f.md" 0).add_field "hi",
        (Card.init testCfg "b/x/g.md" 0).add_field "ho"].filter
          (fun c => c.deckname == "x")).map (fun c => c.finalize.to_genanki_note) ∧
    ((Card.init testCfg "a/x/f.md" 0).add_field "hi").deckname =
      ((Card.init testCfg "b/x/g.md" 0).add_field "ho").deckname := by
  refine ⟨(C4_deck_grouping _).2.1 "x", ?_⟩
  have h := (C4_deck_grouping [(Card.init testCfg "a/x/f.md" 0).add_field "hi",
    (Card.init testCfg "b/x/g.md" 0).add_field "ho"]).2.2.2
      ((Card.init testCfg "a/x/f.md" 0).add_field "hi")
      ((Card.init testCfg "b/x/g.md" 0).add_field "ho")
  exact h.mpr (by decide)

/-! ## C8: remote-image fetch failure aborts field compilation -/

theorem subImages_scan_correspond (fetch : String → FetchResult) (ft cwd : String) :
    ∀ (f : Nat) (cs : List Char),
      (∀ m, subImagesF fetch ft cwd f cs = .error m →
        ∃ u ∈ scanUrlsF f cs, fetchFails (fetch (String.mk u)) = true ∧
          m = fetchErrMsg (fetch (String.mk u)) (String.mk u) ft) ∧
      ((∃ u ∈ scanUrlsF f cs, fetchFails (fetch (String.mk u)) = true) →
        ∃ m, subImagesF fetch ft cwd f cs = .error m) := by
  intro f
  induction f with
  | zero =>
    intro cs
    constructor
    · intro m hm
      simp [subImagesF] at hm
    · rintro ⟨u, hu, -⟩
      simp [scanUrlsF] at hu
  | succ f ih =>
    intro cs
    cases cs with
    | nil =>
      constructor
      · intro m hm
        simp [subImagesF] at hm
      · rintro ⟨u, hu, -⟩
        simp [scanUrlsF] at hu
    | cons c cs2 =>
      cases hma : matchAt (c :: cs2) with
      | some mt =>
        have hscan : scanUrlsF (f + 1) (c :: cs2) = mt.url :: scanUrlsF f mt.rest := by
          simp [scanUrlsF, hma]
        cases hfail : fetchFails (fetch (String.mk mt.url)) with
        | true =>
          have hsub : subImagesF fetch ft cwd (f + 1) (c :: cs2) =
              .error (fetchErrMsg (fetch (String.mk mt.url)) (String.mk mt.url) ft) := by
            simp [subImagesF, hma, hfail]
          constructor
          · intro m hm
            rw [hsub, Except.error.injEq] at hm
            exact ⟨mt.url, by rw [hscan]; exact List.mem_cons_self _ _, hfail, hm.symm⟩
          · intro _
            exact ⟨_, hsub⟩
        | false =>
          constructor
          · intro m hm
            simp only [subImagesF, hma, hfail, Bool.false_eq_true, if_false] at hm
            cases hin : subImagesF fetch ft cwd f mt.rest with
            | error e =>
              rw [hin] at hm
              simp only [Except.error.injEq] at hm
              obtain ⟨u, hu, hf, he⟩ := (ih mt.rest).1 e hin
              exact ⟨u, by rw [hscan]; exact List.mem_cons_of_mem _ hu, hf, by rw [← hm]; exact he⟩
            | ok tail =>
              rw [hin] at hm
              simp at hm
          · rintro ⟨u, hu, hf⟩
            rw [hscan] at hu
            rcases List.mem_cons.mp hu with rfl | hu2
            · rw [hf] at hfail
              exact absurd hfail (by simp)
            · obtain ⟨e, he⟩ := (ih mt.rest).2 ⟨u, hu2, hf⟩
              refine ⟨e, ?_⟩
              simp [subImagesF, hma, hfail, he]
      | none =>
        have hscan : scanUrlsF (f + 1) (c :: cs2) = scanUrlsF f cs2 := by
          simp [scanUrlsF, hma]
        constructor
        · intro m hm
          simp only [subImagesF, hma] at hm
          cases hin : subImagesF fetch ft cwd f cs2 with
          | error e =>
            rw [hin] at hm
            simp only [Except.error.injEq] at hm
            obtain ⟨u, hu, hf, he⟩ := (ih cs2).1 e hin
            exact ⟨u, by rw [hscan]; exact hu, hf, by rw [← hm]; exact he⟩
          | ok tail =>
            rw [hin] at hm
            simp at hm
        · rintro ⟨u, hu, hf⟩
          rw [hscan] at hu
          obtain ⟨e, he⟩ := (ih cs2).2 ⟨u, hu, hf⟩
          refine ⟨e, ?_⟩
          simp [subImagesF, hma, he]

theorem fetchErrMsg_contains (r : FetchResult) (u ft : String) :
    containsSub ft.data (fetchErrMsg r u ft).data ∧
    containsSub u.data (fetchErrMsg r u ft).data := by
  cases r with
  | connError =>
    constructor
    · exact ⟨("failed to download " ++ u ++ " for markdown: ").data, [],
        by simp [fetchErrMsg, String.data_append]⟩
    · exact ⟨("failed to download ").data, (" for markdown: " ++ ft).data,
        by simp [fetchErrMsg, String.data_append]⟩
  | response s =>
    constructor
    · exact ⟨("failed to download " ++ u ++ " for markdown:\n\n").data, [],
        by simp [fetchErrMsg, String.data_append]⟩
    · exact ⟨("failed to download ").data, (" for markdown:\n\n" ++ ft).data,
        by simp [fetchErrMsg, String.data_append]⟩

/-- C8: during rich-text field compilation, compile_field returns a
build-fatal error exactly when some matched remote-image fetch fails
(connection error or non-200 status); the error message contains the
offending URL and the full raw field text, and no compiled field text is
produced in that case. -/
theorem C8_fetch_failure (cfg : Config) (fetch : String → FetchResult) (cwd : String)
    (renderHl render : String → String) (field_lines : List String) :
    (∀ m, compile_field cfg fetch cwd renderHl render field_lines true = .error m →
      containsSub (String.join field_lines).data m.data ∧
      ∃ u ∈ scanUrls (String.join field_lines).data,
        fetchFails (fetch (String.mk u)) = true ∧ containsSub u m.data) ∧
    ((∃ u ∈ scanUrls (String.join field_lines).data,
        fetchFails (fetch (String.mk u)) = true) →
      ∃ m, compile_field cfg fetch cwd renderHl render field_lines true = .error m) := by
  have hcorr := subImages_scan_correspond fetch (String.join field_lines) cwd
    ((String.join field_lines).data.length + 1) (String.join field_lines).data
  constructor
  · intro m hm
    simp only [compile_field, if_true] at hm
    cases hin : subImages fetch cwd (String.join field_lines).data with
    | error e =>
      have he : e = m := by
        rw [hin] at hm
        simpa using hm
      subst he
      obtain ⟨u, hu, hf, hmsg⟩ := hcorr.1 e hin
      subst hmsg
      obtain ⟨hc1, hc2⟩ := fetchErrMsg_contains (fetch (String.mk u)) (String.mk u)
        (String.join field_lines)
      exact ⟨hc1, u, hu, hf, hc2⟩
    | ok tail =>
      rw [hin] at hm
      simp at hm
  · intro hex
    obtain ⟨e, he⟩ := hcorr.2 hex
    refine ⟨e, ?_⟩
    simp only [compile_field, if_true]
    show (match subImages fetch cwd (String.join field_lines).data with
      | .error e => Except.error e
      | .ok cs => Except.ok (field_to_html cfg renderHl render (String.mk cs))) = Except.error e
    rw [show subImages fetch cwd (String.join field_lines).data = .error e from he]

/-- Witness for C8: a 404 response for the single remote image reference of
a concrete field aborts compilation with an error naming that URL and
containing the raw field text. -/
theorem C8_fetch_failure_witness :
    ∃ m, compile_field testCfg (fun _ => FetchResult.response 404) "/w" idRender idRender
        ["![a](http://ex/i.png)\n"] true = .error m ∧
      containsSub "http://ex/i.png".data m.data ∧
      containsSub (String.join ["![a](http://ex/i.png)\n"]).data m.data := by
  have h := C8_fetch_failure testCfg (fun _ => FetchResult.response 404) "/w"
    idRender idRender ["![a](http://ex/i.png)\n"]
  obtain ⟨m, hm⟩ := h.2 ⟨"http://ex/i.png".data, by decide, by decide⟩
  obtain ⟨hft, u, hu, hfail, hsub⟩ := h.1 m hm
  have hs : scanUrls (String.join ["![a](http://ex/i.png)\n"]).data =
      ["http://ex/i.png".data] := by decide
  rw [hs, List.mem_singleton] at hu
  subst hu
  exact ⟨m, hm, hsub, hft⟩

/-! ## C6: dollar-mode math delimiter rewriting

The lemmas below characterize both re.split passes of field_to_html in
full generality: a field decomposed into segments around its unescaped
dollar delimiters is split exactly into those segments, whatever number of
math spans it has, whatever escaped dollars its segments carry, and
whatever backslashes the span contents contain (only the character right
before a delimiter must not be a backslash, which is what makes the
delimiter unescaped). -/

theorem dEF_entry_irrel : ∀ (u : List Char) (q p : Option Char), q ≠ some '\\' →
    dollarsEscapedFrom q u = true → dollarsEscapedFrom p u = true := by
  intro u
  cases u with
  | nil => intro q p _ _; rfl
  | cons c u2 =>
    intro q p hq h
    simp only [dollarsEscapedFrom, Bool.and_eq_true, Bool.or_eq_true] at h ⊢
    refine ⟨?_, h.2⟩
    rcases h.1 with h1 | h1
    · exact Or.inl h1
    · exact absurd (by simpa using h1) hq

theorem dEF_no_dollar : ∀ (u : List Char) (p : Option Char), (∀ x ∈ u, x ≠ '$') →
    dollarsEscapedFrom p u = true := by
  intro u
  induction u with
  | nil => intro p _; rfl
  | cons c u2 ih =>
    intro p h
    simp only [dollarsEscapedFrom, Bool.and_eq_true, Bool.or_eq_true]
    refine ⟨Or.inl ?_, ih (some c) (fun x hx => h x (List.mem_cons_of_mem c hx))⟩
    simp [h c (List.mem_cons_self c _)]

theorem dEF_append : ∀ (u v : List Char) (p : Option Char),
    dollarsEscapedFrom p u = true → dollarsEscapedFrom (lastCharD p u) v = true →
    dollarsEscapedFrom p (u ++ v) = true := by
  intro u
  induction u with
  | nil => intro v p _ hv; exact hv
  | cons c u2 ih =>
    intro v p hu hv
    simp only [dollarsEscapedFrom, Bool.and_eq_true] at hu
    simp only [List.cons_append, dollarsEscapedFrom, Bool.and_eq_true]
    exact ⟨hu.1, ih v (some c) hu.2 hv⟩

theorem noUnescDD_tail (prev : Option Char) (c : Char) (cs : List Char)
    (h : noUnescDD prev (c :: cs) = true) : noUnescDD (some c) cs = true := by
  cases cs with
  | nil => rfl
  | cons c2 t =>
    simp only [noUnescDD, Bool.and_eq_true] at h
    exact h.2

theorem dEF_noUnescDD : ∀ (cs : List Char) (prev : Option Char),
    dollarsEscapedFrom prev cs = true → noUnescDD prev cs = true := by
  intro cs
  induction cs with
  | nil => intro prev _; rfl
  | cons c cs2 ih =>
    intro prev h
    simp only [dollarsEscapedFrom, Bool.and_eq_true, Bool.or_eq_true] at h
    cases cs2 with
    | nil => rfl
    | cons c2 t =>
      simp only [noUnescDD, Bool.and_eq_true]
      refine ⟨?_, ih (some c) h.2⟩
      rcases h.1 with h1 | h1
      · have hc : (c == '$') = false := by simpa using h1
        simp [hc]
      · simp [h1]

theorem splitOkB_head (prev : Option Char) (p : List Char) (rest : List (List Char))
    (h : splitOkB prev (p :: rest) = true) : dollarsEscapedFrom prev p = true := by
  cases rest with
  | nil => simpa [splitOkB] using h
  | cons q r2 =>
    simp only [splitOkB, Bool.and_eq_true] at h
    exact h.1.1

theorem splitU_escaped : ∀ (f : Nat) (prev : Option Char) (cs : List Char),
    cs.length < f → dollarsEscapedFrom prev cs = true →
    splitUnescF ['$'] f prev cs = [cs] := by
  intro f
  induction f with
  | zero => intro prev cs h _; omega
  | succ f ihf =>
    intro prev cs hlen h
    cases cs with
    | nil => rfl
    | cons c cs2 =>
      simp only [dollarsEscapedFrom, Bool.and_eq_true, Bool.or_eq_true] at h
      have hcp : ¬(prev ≠ some '\\' ∧ (['$'] : List Char) ≠ [] ∧
          (['$'].isPrefixOf (c :: cs2)) = true) := by
        rintro ⟨hp, -, hpre⟩
        simp only [List.isPrefixOf, Bool.and_eq_true, beq_iff_eq] at hpre
        rcases h.1 with h1 | h1
        · rw [← hpre.1] at h1
          simp at h1
        · exact hp (by simpa using h1)
      simp only [splitUnescF]
      rw [if_neg hcp]
      rw [ihf (some c) cs2 (by simp at hlen ⊢; omega) h.2]

theorem splitUU_noUnesc : ∀ (f : Nat) (prev : Option Char) (cs : List Char),
    cs.length < f → noUnescDD prev cs = true →
    splitUnescF ['$', '$'] f prev cs = [cs] := by
  intro f
  induction f with
  | zero => intro prev cs h _; omega
  | succ f ihf =>
    intro prev cs hlen h
    cases cs with
    | nil => rfl
    | cons c cs2 =>
      have hcp : ¬(prev ≠ some '\\' ∧ (['$', '$'] : List Char) ≠ [] ∧
          (['$', '$'].isPrefixOf (c :: cs2)) = true) := by
        rintro ⟨hp, -, hpre⟩
        cases cs2 with
        | nil => simp [List.isPrefixOf] at hpre
        | cons c2 t =>
          simp only [List.isPrefixOf, Bool.and_eq_true, beq_iff_eq] at hpre
          obtain ⟨h1, h2, -⟩ := hpre
          simp only [noUnescDD, Bool.and_eq_true] at h
          have hh := h.1
          rw [← h1, ← h2] at hh
          have hpb : (prev == some '\\') = false := by
            cases hpe : prev == some '\\'
            · rfl
            · exact absurd (by simpa using hpe) hp
          rw [hpb] at hh
          simp at hh
      simp only [splitUnescF]
      rw [if_neg hcp]
      rw [ihf (some c) cs2 (by simp at hlen ⊢; omega) (noUnescDD_tail prev c cs2 h)]

theorem splitU_pieces : ∀ (f : Nat) (prev : Option Char) (pieces : List (List Char)),
    (pyJoinChar '$' pieces).length < f → splitOkB prev pieces = true → pieces ≠ [] →
    splitUnescF ['$'] f prev (pyJoinChar '$' pieces) = pieces := by
  intro f
  induction f with
  | zero => intro prev pieces h _ _; omega
  | succ f ihf =>
    intro prev pieces hlen hok hne
    cases pieces with
    | nil => exact absurd rfl hne
    | cons p rest =>
      cases rest with
      | nil =>
        exact splitU_escaped (f + 1) prev p hlen (by simpa [splitOkB] using hok)
      | cons q rest2 =>
        simp only [splitOkB, Bool.and_eq_true] at hok
        obtain ⟨⟨hdef, hbound⟩, hrest⟩ := hok
        cases p with
        | nil =>
          have hj : pyJoinChar '$' ([] :: q :: rest2) =
              '$' :: pyJoinChar '$' (q :: rest2) := rfl
          rw [hj] at hlen ⊢
          have hprev : prev ≠ some '\\' := by
            have hb : (prev == some '\\') = false := by simpa [lastCharD] using hbound
            intro hcontra
            rw [hcontra] at hb
            simp at hb
          have hcp : prev ≠ some '\\' ∧ (['$'] : List Char) ≠ [] ∧
              (['$'].isPrefixOf ('$' :: pyJoinChar '$' (q :: rest2))) = true :=
            ⟨hprev, by simp, by simp [List.isPrefixOf]⟩
          simp only [splitUnescF]
          rw [if_pos hcp]
          have hrec : splitUnescF ['$'] f (some ((['$'] : List Char).getLastD '$'))
              ((pyJoinChar '$' (q :: rest2)).drop (['$'].length - 1)) = q :: rest2 := by
            simp only [List.getLastD, List.length_singleton, Nat.sub_self, List.drop_zero]
            exact ihf (some '$') (q :: rest2) (by simp at hlen; omega) hrest (by simp)
          rw [hrec]
        | cons x p2 =>
          have hj : pyJoinChar '$' ((x :: p2) :: q :: rest2) =
              x :: pyJoinChar '$' (p2 :: q :: rest2) := pyJoinChar_cons_cons '$' x p2 _
          rw [hj] at hlen ⊢
          simp only [dollarsEscapedFrom, Bool.and_eq_true, Bool.or_eq_true] at hdef
          have hcp : ¬(prev ≠ some '\\' ∧ (['$'] : List Char) ≠ [] ∧
              (['$'].isPrefixOf (x :: pyJoinChar '$' (p2 :: q :: rest2))) = true) := by
            rintro ⟨hp, -, hpre⟩
            simp only [List.isPrefixOf, Bool.and_eq_true, beq_iff_eq] at hpre
            rcases hdef.1 with h1 | h1
            · rw [← hpre.1] at h1
              simp at h1
            · exact hp (by simpa using h1)
          simp only [splitUnescF]
          rw [if_neg hcp]
          have hrec : splitUnescF ['$'] f (some x) (pyJoinChar '$' (p2 :: q :: rest2)) =
              p2 :: q :: rest2 := by
            apply ihf (some x) (p2 :: q :: rest2) (by simp at hlen ⊢; omega) _ (by simp)
            simp only [splitOkB, Bool.and_eq_true]
            exact ⟨⟨hdef.2, by simpa [lastCharD] using hbound⟩, hrest⟩
          rw [hrec]

theorem splitUU_pieces : ∀ (f : Nat) (prev : Option Char) (pieces : List (List Char)),
    (joinSep2 pieces).length < f → splitOkB prev pieces = true → pieces ≠ [] →
    splitUnescF ['$', '$'] f prev (joinSep2 pieces) = pieces := by
  intro f
  induction f with
  | zero => intro prev pieces h _ _; omega
  | succ f ihf =>
    intro prev pieces hlen hok hne
    cases pieces with
    | nil => exact absurd rfl hne
    | cons p rest =>
      cases rest with
      | nil =>
        exact splitUU_noUnesc (f + 1) prev p hlen
          (dEF_noUnescDD p prev (by simpa [splitOkB] using hok))
      | cons q rest2 =>
        simp only [splitOkB, Bool.and_eq_true] at hok
        obtain ⟨⟨hdef, hbound⟩, hrest⟩ := hok
        cases p with
        | nil =>
          have hj : joinSep2 ([] :: q :: rest2) =
              '$' :: '$' :: joinSep2 (q :: rest2) := rfl
          rw [hj] at hlen ⊢
          have hprev : prev ≠ some '\\' := by
            have hb : (prev == some '\\') = false := by simpa [lastCharD] using hbound
            intro hcontra
            rw [hcontra] at hb
            simp at hb
          have hcp : prev ≠ some '\\' ∧ (['$', '$'] : List Char) ≠ [] ∧
              (['$', '$'].isPrefixOf ('$' :: '$' :: joinSep2 (q :: rest2))) = true :=
            ⟨hprev, by simp, by simp [List.isPrefixOf]⟩
          simp only [splitUnescF]
          rw [if_pos hcp]
          have hrec : splitUnescF ['$', '$'] f (some ((['$', '$'] : List Char).getLastD '$'))
              (('$' :: joinSep2 (q :: rest2)).drop (['$', '$'].length - 1)) = q :: rest2 := by
            show splitUnescF ['$', '$'] f (some '$')
              (('$' :: joinSep2 (q :: rest2)).drop 1) = q :: rest2
            rw [List.drop_one, List.tail_cons]
            exact ihf (some '$') (q :: rest2) (by simp at hlen; omega) hrest (by simp)
          rw [hrec]
        | cons x p2 =>
          have hj : joinSep2 ((x :: p2) :: q :: rest2) =
              x :: joinSep2 (p2 :: q :: rest2) := rfl
          rw [hj] at hlen ⊢
          simp only [dollarsEscapedFrom, Bool.and_eq_true, Bool.or_eq_true] at hdef
          have hcp : ¬(prev ≠ some '\\' ∧ (['$', '$'] : List Char) ≠ [] ∧
              (['$', '$'].isPrefixOf (x :: joinSep2 (p2 :: q :: rest2))) = true) := by
            rintro ⟨hp, -, hpre⟩
            simp only [List.isPrefixOf, Bool.and_eq_true, beq_iff_eq] at hpre
            rcases hdef.1 with h1 | h1
            · rw [← hpre.1] at h1
              simp at h1
            · exact hp (by simpa using h1)
          simp only [splitUnescF]
          rw [if_neg hcp]
          have hrec : splitUnescF ['$', '$'] f (some x) (joinSep2 (p2 :: q :: rest2)) =
              p2 :: q :: rest2 := by
            apply ihf (some x) (p2 :: q :: rest2) (by simp at hlen ⊢; omega) _ (by simp)
            simp only [splitOkB, Bool.and_eq_true]
            exact ⟨⟨hdef.2, by simpa [lastCharD] using hbound⟩, hrest⟩
          rw [hrec]

theorem noUnescDD_piece_join : ∀ (p : List Char) (prev : Option Char) (J : List Char),
    dollarsEscapedFrom prev p = true → noUnescDD (some '$') J = true →
    (∀ y, J.head? = some y → y ≠ '$') →
    noUnescDD prev (p ++ '$' :: J) = true := by
  intro p
  induction p with
  | nil =>
    intro prev J _ hJ hhead
    show noUnescDD prev ('$' :: J) = true
    cases J with
    | nil => rfl
    | cons y J2 =>
      simp only [noUnescDD, Bool.and_eq_true]
      refine ⟨?_, hJ⟩
      have hy : (y == '$') = false := by simp [hhead y rfl]
      simp [hy]
  | cons x p2 ih =>
    intro prev J hdef hJ hhead
    simp only [dollarsEscapedFrom, Bool.and_eq_true, Bool.or_eq_true] at hdef
    show noUnescDD prev (x :: (p2 ++ '$' :: J)) = true
    cases p2 with
    | nil =>
      simp only [List.nil_append, noUnescDD, Bool.and_eq_true]
      refine ⟨?_, ih (some x) J rfl hJ hhead⟩
      rcases hdef.1 with h1 | h1
      · have hx : (x == '$') = false := by simpa using h1
        simp [hx]
      · simp [h1]
    | cons x2 p3 =>
      simp only [List.cons_append, noUnescDD, Bool.and_eq_true]
      refine ⟨?_, ?_⟩
      · rcases hdef.1 with h1 | h1
        · have hx : (x == '$') = false := by simpa using h1
          simp [hx]
        · simp [h1]
      · exact ih (some x) J hdef.2 hJ hhead

theorem joinSep_noUnescDD : ∀ (pieces : List (List Char)) (prev : Option Char),
    splitOkB prev pieces = true → interiorNE pieces = true →
    noUnescDD prev (pyJoinChar '$' pieces) = true := by
  intro pieces
  induction pieces with
  | nil => intro prev _ _; rfl
  | cons p rest ih =>
    intro prev hok hint
    cases rest with
    | nil =>
      exact dEF_noUnescDD p prev (by simpa [splitOkB] using hok)
    | cons q rest2 =>
      simp only [splitOkB, Bool.and_eq_true] at hok
      obtain ⟨⟨hdef, -⟩, hrest⟩ := hok
      simp only [interiorNE, Bool.and_eq_true] at hint
      obtain ⟨hq, hint2⟩ := hint
      have hJ : noUnescDD (some '$') (pyJoinChar '$' (q :: rest2)) = true :=
        ih (some '$') hrest hint2
      have hj : pyJoinChar '$' (p :: q :: rest2) =
          p ++ '$' :: pyJoinChar '$' (q :: rest2) := rfl
      rw [hj]
      apply noUnescDD_piece_join p prev _ hdef hJ
      intro y hy
      cases q with
      | nil =>
        cases rest2 with
        | nil => simp [pyJoinChar] at hy
        | cons r rr => simp at hq
      | cons y0 q2 =>
        have hjq : pyJoinChar '$' ((y0 :: q2) :: rest2) =
            y0 :: pyJoinChar '$' (q2 :: rest2) := pyJoinChar_cons_cons '$' y0 q2 rest2
        rw [hjq] at hy
        have hyy : y0 = y := by simpa using hy
        have hdq : dollarsEscapedFrom (some '$') (y0 :: q2) = true :=
          splitOkB_head (some '$') (y0 :: q2) rest2 hrest
        simp only [dollarsEscapedFrom, Bool.and_eq_true, Bool.or_eq_true] at hdq
        rcases hdq.1 with h1 | h1
        · rw [hyy] at h1
          intro hcontra
          rw [hcontra] at h1
          simp at h1
        · simp at h1

theorem wrapped_escaped : ∀ (n : Nat) (pieces : List (List Char)) (q : Option Char),
    pieces.length ≤ n → q ≠ some '\\' → splitOkB q pieces = true →
    ∀ p : Option Char, p ≠ some '\\' →
      dollarsEscapedFrom p
        ((wrapOdds ['\\', '\\', '['] ['\\', '\\', ']'] pieces).flatten) = true := by
  intro n
  induction n with
  | zero =>
    intro pieces q hlen _ _ p _
    have hnil : pieces = [] := List.length_eq_zero.mp (Nat.le_zero.mp hlen)
    subst hnil
    rfl
  | succ n ihn =>
    intro pieces q hlen hq hok p hp
    cases pieces with
    | nil => rfl
    | cons x rest =>
      cases rest with
      | nil =>
        show dollarsEscapedFrom p (x ++ [].flatten) = true
        rw [List.flatten_nil, List.append_nil]
        exact dEF_entry_irrel x q p hq (splitOkB_head q x [] hok)
      | cons y t =>
        simp only [splitOkB, Bool.and_eq_true] at hok
        obtain ⟨⟨hdefx, -⟩, hrest⟩ := hok
        have hdefy : dollarsEscapedFrom (some '$') y = true := splitOkB_head (some '$') y t hrest
        have hrestok : splitOkB (some '$') t = true := by
          cases t with
          | nil => rfl
          | cons t0 t1 =>
            simp only [splitOkB, Bool.and_eq_true] at hrest
            exact hrest.2
        have hfl : (wrapOdds ['\\', '\\', '['] ['\\', '\\', ']'] (x :: y :: t)).flatten =
            x ++ (['\\', '\\', '['] ++ (y ++ (['\\', '\\', ']'] ++
              (wrapOdds ['\\', '\\', '['] ['\\', '\\', ']'] t).flatten))) := by
          simp [wrapOdds, List.append_assoc]
        rw [hfl]
        apply dEF_append x _ p (dEF_entry_irrel x q p hq hdefx)
        apply dEF_append _ _ _ (dEF_no_dollar ['\\', '\\', '['] _ (by decide))
        have hop : lastCharD (lastCharD p x) ['\\', '\\', '['] = some '[' := rfl
        rw [hop]
        apply dEF_append y _ _ (dEF_entry_irrel y (some '$') (some '[') (by simp) hdefy)
        apply dEF_append _ _ _ (dEF_no_dollar ['\\', '\\', ']'] _ (by decide))
        have hcl : lastCharD (lastCharD (some '[') y) ['\\', '\\', ']'] = some ']' := rfl
        rw [hcl]
        exact ihn t (some '$') (by simp at hlen; omega) (by simp) hrestok (some ']') (by simp)

/-- C6: with dollar mode enabled, field compilation rewrites a field
around its unescaped dollar delimiters exactly as the claim states, for
any number of spans: joining segments by unescaped single dollar signs
compiles to the same segments with every second one wrapped in the
inline-math markers, joining segments by unescaped double dollar signs
wraps every second segment in the block-math markers, a field whose every
dollar sign is escaped is left entirely unchanged (an escaped dollar is
never treated as a delimiter boundary), and the documented example
compiles math delimiters around x^2 only, leaving the escaped dollar of
\$5 as literal text. Segments may contain escaped dollars and (away from
the delimiter boundary) backslashes. -/
theorem C6_dollar_mode :
    (∀ pieces : List (List Char), pieces ≠ [] → splitOkB none pieces = true →
      interiorNE pieces = true →
      dollarNormalize (String.mk (pyJoinChar '$' pieces)) =
        String.mk ((wrapOdds ['\\', '\\', '('] ['\\', '\\', ')'] pieces).flatten)) ∧
    (∀ pieces : List (List Char), pieces ≠ [] → splitOkB none pieces = true →
      dollarNormalize (String.mk (joinSep2 pieces)) =
        String.mk ((wrapOdds ['\\', '\\', '['] ['\\', '\\', ']'] pieces).flatten)) ∧
    (∀ cs : List Char, dollarsEscapedFrom none cs = true →
      dollarNormalize (String.mk cs) = String.mk cs) ∧
    dollarNormalize "Price: \\$5 $x^2$" = "Price: \\$5 \\\\(x^2\\\\)" := by
  refine ⟨?_, ?_, ?_, by decide⟩
  · intro pieces hne hok hint
    have hpass1 : dollarPass ['$', '$'] ['\\', '\\', '['] ['\\', '\\', ']']
        (pyJoinChar '$' pieces) = pyJoinChar '$' pieces := by
      unfold dollarPass splitUnesc
      rw [splitUU_noUnesc _ none _ (by omega) (joinSep_noUnescDD pieces none hok hint)]
      simp [wrapOdds]
    show String.mk (dollarPass ['$'] ['\\', '\\', '('] ['\\', '\\', ')']
      (dollarPass ['$', '$'] ['\\', '\\', '['] ['\\', '\\', ']'] (pyJoinChar '$' pieces))) = _
    rw [hpass1]
    unfold dollarPass splitUnesc
    rw [splitU_pieces _ none pieces (by omega) hok hne]
  · intro pieces hne hok
    show String.mk (dollarPass ['$'] ['\\', '\\', '('] ['\\', '\\', ')']
      (dollarPass ['$', '$'] ['\\', '\\', '['] ['\\', '\\', ']'] (joinSep2 pieces))) = _
    have hpass1 : dollarPass ['$', '$'] ['\\', '\\', '['] ['\\', '\\', ']']
        (joinSep2 pieces) =
        (wrapOdds ['\\', '\\', '['] ['\\', '\\', ']'] pieces).flatten := by
      unfold dollarPass splitUnesc
      rw [splitUU_pieces _ none pieces (by omega) hok hne]
    rw [hpass1]
    unfold dollarPass splitUnesc
    rw [splitU_escaped _ none _ (by omega)
      (wrapped_escaped pieces.length pieces none (Nat.le_refl _) (by simp) hok none (by simp))]
    simp [wrapOdds]
  · intro cs hesc
    show String.mk (dollarPass ['$'] ['\\', '\\', '('] ['\\', '\\', ')']
      (dollarPass ['$', '$'] ['\\', '\\', '['] ['\\', '\\', ']'] cs)) = _
    have hpass1 : dollarPass ['$', '$'] ['\\', '\\', '['] ['\\', '\\', ']'] cs = cs := by
      unfold dollarPass splitUnesc
      rw [splitUU_noUnesc _ none _ (by omega) (dEF_noUnescDD cs none hesc)]
      simp [wrapOdds]
    rw [hpass1]
    unfold dollarPass splitUnesc
    rw [splitU_escaped _ none _ (by omega) hesc]
    simp [wrapOdds]

/-- Witness for C6: a two-span field with an escaped dollar in its leading
text and a backslash inside its first span content, a two-span block
field, and an all-escaped field left unchanged. -/
theorem C6_dollar_mode_witness :
    dollarNormalize (String.mk (pyJoinChar '$'
        [['a', '\\', '$', 'b'], ['x', '\\', 'y'], ['c'], ['z'], ['d']])) =
      String.mk ((wrapOdds ['\\', '\\', '('] ['\\', '\\', ')']
        [['a', '\\', '$', 'b'], ['x', '\\', 'y'], ['c'], ['z'], ['d']]).flatten) ∧
    dollarNormalize (String.mk (joinSep2 [['u'], ['v'], ['w'], ['s'], ['t']])) =
      String.mk ((wrapOdds ['\\', '\\', '['] ['\\', '\\', ']']
        [['u'], ['v'], ['w'], ['s'], ['t']]).flatten) ∧
    dollarNormalize (String.mk ['\\', '$', '5']) = String.mk ['\\', '$', '5'] :=
  ⟨C6_dollar_mode.1 _ (by decide) (by decide) (by decide),
   C6_dollar_mode.2.1 _ (by decide) (by decide),
   C6_dollar_mode.2.2.1 _ (by decide)⟩

end Ankdown
